import Mathlib

/-!
Verification of the llbuild target resolution and execution engine
(src/lib/llbuild.js, event-emitting variant of class LLBuild).

The engine is a recursive interpreter over polymorphic JavaScript target
values.  We embed it shallowly:

* JavaScript target values become the inductive type `Target` with one
  constructor per runtime shape the engine distinguishes
  (null, undefined, booleans, strings, arrays, functions, anything else).
* An action callback is identified by a numeric id; its observable
  behaviour (synchronous throw, or an asynchronous settlement after a
  given delay with a given result) is supplied by an environment
  `Env : Nat -> Behavior`.
* Promises are modelled denotationally: executing a target yields an
  `Outcome` consisting of the settled result (`none` = fulfilled,
  `some e` = rejected with error `e`), the abstract time at which the
  returned promise settles, and a timestamped list of observations
  (emitted events plus callback invocations).  Each promise `.then`
  handler costs one abstract tick, mirroring microtask ordering; a
  callback with asynchronous duration `d` settles `d` ticks after it is
  invoked.  `Promise.all` rejects at the earliest rejection among its
  inputs (ties resolved by array index) and fulfils at the latest
  fulfilment, mirroring ECMAScript semantics; nothing is ever cancelled,
  so every element contributes its full observation list.
* The engine recursion is not structurally terminating in JavaScript
  (a cyclic registry overflows the call stack), so the embedding carries
  a fuel parameter decremented at every internal call; exhausted fuel
  yields a distinguished engine error, mirroring the stack overflow.
  All theorems below either hold for every fuel or take enough fuel for
  the executions they describe.
-/

/-- Error values.  `user uid` is an error object created inside a user
supplied action callback (identity tracked by `uid`, so that preservation
of identity, not wrapping, is expressible); `engine msg` is an `Error`
the engine itself constructs with message `msg`. -/
inductive Err where
  | user (uid : Nat)
  | engine (msg : String)
deriving DecidableEq

/-- Execution context value passed by the caller; an opaque value whose
identity is all that matters, modelled by a natural number. -/
abbrev Ctx := Nat

/-- Observations recorded during an execution: the five lifecycle events
the engine emits through its EventEmitter, plus `callbackInvoked`, which
records that the body of the action callback with the given id was
entered with the given context value (not an emitted event, but the
observation the temporal claims are about). -/
inductive Ev where
  | buildStarted (targetName : String)
  | buildComplete (targetName : String)
  | buildFailed (targetName : String) (e : Err)
  | targetExecutionStarted (targetName : String)
  | targetExecutionCompleted (targetName : String)
  | targetExecutionFailed (targetName : String) (e : Err)
  | callbackInvoked (id : Nat) (ctx : Ctx)
deriving DecidableEq

/-- A JavaScript value in target position, by the runtime shapes
`executeAnyTarget` distinguishes: `null`, `undefined`, booleans, strings
(names), arrays (composites), functions (actions, identified by id), and
`other tag` for any other value (`tag` standing for its `typeof`). -/
inductive Target where
  | null
  | undef
  | bool (b : Bool)
  | str (s : String)
  | arr (ts : List Target)
  | fn (id : Nat)
  | other (tag : String)

/-- The JavaScript test `targetArray[0] === true`. -/
def isTrueLiteral : Target → Bool
  | Target.bool true => true
  | _ => false

/-- The JavaScript test `target === null || target === undefined`. -/
def isAbsentRead : Target → Bool
  | Target.null => true
  | Target.undef => true
  | _ => false

/-- Observable behaviour of an action callback: either it throws
synchronously before returning a promise, or it returns a promise that
settles `dur` ticks later, fulfilled (`none`) or rejected (`some e`). -/
inductive Behavior where
  | syncThrow (e : Err)
  | async (dur : Nat) (rejectedWith : Option Err)

/-- Assignment of behaviours to action callback ids. -/
abbrev Env := Nat → Behavior

/-- The target registry: the object passed to the LLBuild constructor,
a finite map from target names to target values. -/
abbrev Registry := List (String × Target)

/-- JavaScript property read `this.targets[targetName]`: the bound value
when the key is present, `undefined` otherwise.  (A JavaScript property
read cannot distinguish an absent key from a key bound to `undefined`.) -/
def jsGet (reg : Registry) (name : String) : Target :=
  (List.lookup name reg).getD Target.undef

/-- Number of ticks between invocation of a callback and settlement of
its asynchronous result; a synchronous throw settles immediately. -/
def behDur (b : Behavior) : Nat :=
  match b with
  | .syncThrow _ => 0
  | .async dur _ => dur

/-- The settled result of a callback: `none` for fulfilment, `some e`
for a synchronous throw or an asynchronous rejection with `e`. -/
def behResult (b : Behavior) : Option Err :=
  match b with
  | .syncThrow e => some e
  | .async _ r => r

/-- The settled outcome of executing one target: `result` is `none` when
the returned promise fulfils and `some e` when it rejects with `e`;
`settle` is the abstract time of settlement; `trace` lists the
timestamped observations of the execution. -/
structure Outcome where
  result : Option Err
  settle : Nat
  trace : List (Nat × Ev)
deriving DecidableEq

/-- Outcome of `Promise.resolve()`: fulfilled at the current time with
no observations. -/
def okOut (time : Nat) : Outcome :=
  ⟨none, time, []⟩

/-- Outcome standing for exhaustion of the embedding fuel, mirroring the
stack overflow a cyclic registry produces in JavaScript. -/
def fuelOut (time : Nat) : Outcome :=
  ⟨some (Err.engine ("Maximum call stack size exceeded")), time, []⟩

/-- LLBuild.executeTargetRunner: emit targetExecutionStarted (one tick),
invoke the callback with the context (next tick), await its settlement,
then emit targetExecutionCompleted or targetExecutionFailed one tick
after settlement and settle with the callback result unchanged. -/
def executeTargetRunner (env : Env) (id : Nat) (targetName : String)
    (ctx : Ctx) (time : Nat) : Outcome :=
  let s := time + 2 + behDur (env id)
  match behResult (env id) with
  | none =>
      ⟨none, s + 1,
        [(time + 1, Ev.targetExecutionStarted targetName),
         (time + 2, Ev.callbackInvoked id ctx),
         (s + 1, Ev.targetExecutionCompleted targetName)]⟩
  | some e =>
      ⟨some e, s + 1,
        [(time + 1, Ev.targetExecutionStarted targetName),
         (time + 2, Ev.callbackInvoked id ctx),
         (s + 1, Ev.targetExecutionFailed targetName e)]⟩

/-- Settlement data of `Promise.all` rejection: the earliest rejection
among the input outcomes (settle time and error), earlier index winning
ties; `none` when every input fulfils. -/
def firstRejection : List Outcome → Option (Nat × Err)
  | [] => none
  | o :: rest =>
    match o.result with
    | none => firstRejection rest
    | some e =>
      match firstRejection rest with
      | none => some (o.settle, e)
      | some (s, e2) => if s < o.settle then some (s, e2) else some (o.settle, e)

/-- Settlement time of a fulfilled `Promise.all`: the latest settlement
among the inputs (at least the start time). -/
def maxSettle (time : Nat) (os : List Outcome) : Nat :=
  os.foldl (fun m o => max m o.settle) time

/-- Concatenation of the observation lists of a list of outcomes, in
index order.  Used for composite targets: every element's observations
occur whether or not a sibling fails (nothing is cancelled). -/
def joinTraces (os : List Outcome) : List (Nat × Ev) :=
  os.foldr (fun o acc => o.trace ++ acc) []

mutual

/-- LLBuild.executeAnyTarget: classify a target value by runtime shape
and dispatch.  null, undefined and booleans fulfil immediately; arrays
go to composite execution; strings to name resolution; functions to the
runner; anything else rejects with an unsupported-type error. -/
def executeAnyTarget (env : Env) (reg : Registry) :
    Nat → Target → String → Ctx → Nat → Outcome
  | 0, _, _, _, time => fuelOut time
  | fuel + 1, t, targetName, ctx, time =>
    match t with
    | Target.null => okOut time
    | Target.undef => okOut time
    | Target.bool _ => okOut time
    | Target.arr ts => executeArrayTarget env reg fuel ts targetName ctx time
    | Target.str s => executeTargetWithName env reg fuel s ctx time
    | Target.fn id => executeTargetRunner env id targetName ctx time
    | Target.other tag =>
        ⟨some (Err.engine ("Unsupported target type: " ++ tag)), time, []⟩
termination_by structural fuel _ _ _ _ => fuel

/-- LLBuild.executeArrayTarget: an empty array fulfils immediately;
otherwise dispatch on whether the first element is exactly boolean true
(serial mode) or not (parallel mode). -/
def executeArrayTarget (env : Env) (reg : Registry) :
    Nat → List Target → String → Ctx → Nat → Outcome
  | 0, _, _, _, time => fuelOut time
  | fuel + 1, ts, targetName, ctx, time =>
    match ts with
    | [] => okOut time
    | t0 :: rest =>
      if isTrueLiteral t0 then
        executeArrayTargetSerially env reg fuel (t0 :: rest) targetName ctx time
      else
        executeArrayTargetInParallel env reg fuel (t0 :: rest) targetName ctx time
termination_by structural fuel _ _ _ _ => fuel

/-- LLBuild.executeArrayTargetSerially: arrays of length below two fulfil
immediately; otherwise the elements from index 1 on are chained with
promise `.then`, each started at the settlement of its predecessor, the
remaining handlers skipped from the first rejection on. -/
def executeArrayTargetSerially (env : Env) (reg : Registry) :
    Nat → List Target → String → Ctx → Nat → Outcome
  | 0, _, _, _, time => fuelOut time
  | fuel + 1, ts, targetName, ctx, time =>
    match ts with
    | [] => okOut time
    | [_] => okOut time
    | _ :: t1 :: rest =>
      (t1 :: rest).foldl
        (fun acc t =>
          match acc.result with
          | some _ => acc
          | none =>
            let o := executeAnyTarget env reg fuel t targetName ctx acc.settle
            ⟨o.result, o.settle, acc.trace ++ o.trace⟩)
        ⟨none, time, []⟩
termination_by structural fuel _ _ _ _ => fuel

/-- LLBuild.executeArrayTargetInParallel: start every element (including
index 0) at the current time and join with `Promise.all`: reject at the
earliest element rejection with that element's error, or fulfil at the
latest element settlement; every element's observations occur either
way (no cancellation). -/
def executeArrayTargetInParallel (env : Env) (reg : Registry) :
    Nat → List Target → String → Ctx → Nat → Outcome
  | 0, _, _, _, time => fuelOut time
  | fuel + 1, ts, targetName, ctx, time =>
    let os := ts.map (fun t => executeAnyTarget env reg fuel t targetName ctx time)
    match firstRejection os with
    | some (s, e) => ⟨some e, s, joinTraces os⟩
    | none => ⟨none, maxSettle time os, joinTraces os⟩
termination_by structural fuel _ _ _ _ => fuel

/-- LLBuild.executeTargetWithName: read the registry at the name; when
the read yields null or undefined (key absent, or key bound to an absent
value, which a property read cannot tell apart) reject with a target
does not exist error naming the key; otherwise re-enter classification
on the bound value with the resolved name as the reporting name. -/
def executeTargetWithName (env : Env) (reg : Registry) :
    Nat → String → Ctx → Nat → Outcome
  | 0, _, _, time => fuelOut time
  | fuel + 1, targetName, ctx, time =>
    let target := jsGet reg targetName
    if isAbsentRead target then
      ⟨some (Err.engine ("Target does not exist: " ++ targetName)), time, []⟩
    else
      executeAnyTarget env reg fuel target targetName ctx time
termination_by structural fuel _ _ _ => fuel

end

/-- LLBuild.executeTarget (event-emitting variant): reject immediately,
before any event, unless the argument is a truthy string (so the empty
string, null, undefined, false, arrays and functions are all rejected);
otherwise emit buildStarted, execute the name through classification,
and emit buildComplete or buildFailed one tick after the inner
settlement, re-surfacing the inner result unchanged. -/
def executeTarget (env : Env) (reg : Registry) (fuel : Nat)
    (target : Target) (ctx : Ctx) (time : Nat) : Outcome :=
  match target with
  | Target.str s =>
    if s = "" then
      ⟨some (Err.engine ("Target name is expected to be a string.")), time, []⟩
    else
      let o := executeAnyTarget env reg fuel (Target.str s) s ctx (time + 2)
      match o.result with
      | none =>
          ⟨none, o.settle + 1,
            (time + 1, Ev.buildStarted s) :: o.trace
              ++ [(o.settle + 1, Ev.buildComplete s)]⟩
      | some e =>
          ⟨some e, o.settle + 1,
            (time + 1, Ev.buildStarted s) :: o.trace
              ++ [(o.settle + 1, Ev.buildFailed s e)]⟩
  | _ =>
      ⟨some (Err.engine ("Target name is expected to be a string.")), time, []⟩

/-- Callback ids of the invocation observations of a trace, in order. -/
def invocationIds (tr : List (Nat × Ev)) : List Nat :=
  tr.filterMap (fun p =>
    match p.2 with
    | Ev.callbackInvoked id _ => some id
    | _ => none)

/-- Invocation observations of a trace as (callback id, context value)
pairs, in order. -/
def invocationCtxs (tr : List (Nat × Ev)) : List (Nat × Ctx) :=
  tr.filterMap (fun p =>
    match p.2 with
    | Ev.callbackInvoked id c => some (id, c)
    | _ => none)

/-- Expected value for the serial composite claim, written from the spec
wording: the callbacks a serial chain invokes are exactly the elements
up to and including the first failing one, in index order. -/
def invokedUpToFirstFail (env : Env) : List Nat → List Nat
  | [] => []
  | i :: rest =>
    match behResult (env i) with
    | some _ => [i]
    | none => i :: invokedUpToFirstFail env rest

/-- Expected value for the serial composite claim, written from the spec
wording: a serial chain settles with the error of its first failing
element, or fulfils when no element fails. -/
def firstFailErr (env : Env) : List Nat → Option Err
  | [] => none
  | i :: rest =>
    match behResult (env i) with
    | some e => some e
    | none => firstFailErr env rest

/-- Timestamps strictly increase along the trace and never exceed the
settlement time: the observations of such an outcome happen in list
order, all before the outcome is surfaced. -/
def wellTimed (o : Outcome) : Prop :=
  List.Pairwise (fun p q => p.1 < q.1) o.trace ∧ ∀ p ∈ o.trace, p.1 ≤ o.settle

/-- Sample environment: every callback fulfils immediately. -/
def envOk : Env := fun _ => Behavior.async 0 none

/-- Sample environment for the serial example [true, ok, fail, ok]:
callback 1 rejects, all others fulfil. -/
def envSerialEx : Env := fun i =>
  if i = 1 then Behavior.async 0 (some (Err.user 1)) else Behavior.async 0 none

/-- Sample environment for the parallel example [fail, ok, ok]:
callback 0 rejects, all others fulfil. -/
def envParEx : Env := fun i =>
  if i = 0 then Behavior.async 0 (some (Err.user 5)) else Behavior.async 0 none

/-- Sample environment for the parallel join example: callback 0 rejects
immediately, callback 1 fulfils after 10 ticks. -/
def envRace : Env := fun i =>
  if i = 0 then Behavior.async 0 (some (Err.user 0)) else Behavior.async 10 none

section EquationLemmas

variable (env : Env) (reg : Registry)

@[simp] theorem anyTarget_null (fuel targetName ctx time) :
    executeAnyTarget env reg (fuel + 1) Target.null targetName ctx time = okOut time := rfl

@[simp] theorem anyTarget_undef (fuel targetName ctx time) :
    executeAnyTarget env reg (fuel + 1) Target.undef targetName ctx time = okOut time := rfl

@[simp] theorem anyTarget_bool (fuel b targetName ctx time) :
    executeAnyTarget env reg (fuel + 1) (Target.bool b) targetName ctx time = okOut time := rfl

@[simp] theorem anyTarget_arr (fuel ts targetName ctx time) :
    executeAnyTarget env reg (fuel + 1) (Target.arr ts) targetName ctx time =
      executeArrayTarget env reg fuel ts targetName ctx time := rfl

@[simp] theorem anyTarget_str (fuel s targetName ctx time) :
    executeAnyTarget env reg (fuel + 1) (Target.str s) targetName ctx time =
      executeTargetWithName env reg fuel s ctx time := rfl

@[simp] theorem anyTarget_fn (fuel id targetName ctx time) :
    executeAnyTarget env reg (fuel + 1) (Target.fn id) targetName ctx time =
      executeTargetRunner env id targetName ctx time := rfl

@[simp] theorem anyTarget_other (fuel tag targetName ctx time) :
    executeAnyTarget env reg (fuel + 1) (Target.other tag) targetName ctx time =
      ⟨some (Err.engine ("Unsupported target type: " ++ tag)), time, []⟩ := rfl

@[simp] theorem arrayTarget_nil (fuel targetName ctx time) :
    executeArrayTarget env reg (fuel + 1) [] targetName ctx time = okOut time := rfl

theorem arrayTarget_cons (fuel t0 rest targetName ctx time) :
    executeArrayTarget env reg (fuel + 1) (t0 :: rest) targetName ctx time =
      if isTrueLiteral t0 then
        executeArrayTargetSerially env reg fuel (t0 :: rest) targetName ctx time
      else
        executeArrayTargetInParallel env reg fuel (t0 :: rest) targetName ctx time := rfl

@[simp] theorem serially_one (fuel t0 targetName ctx time) :
    executeArrayTargetSerially env reg (fuel + 1) [t0] targetName ctx time = okOut time := rfl

theorem withName_unfold (fuel targetName ctx time) :
    executeTargetWithName env reg (fuel + 1) targetName ctx time =
      if isAbsentRead (jsGet reg targetName) then
        ⟨some (Err.engine ("Target does not exist: " ++ targetName)), time, []⟩
      else
        executeAnyTarget env reg fuel (jsGet reg targetName) targetName ctx time := rfl

end EquationLemmas

/-- One link of the serial promise chain built by
LLBuild.executeArrayTargetSerially: when the accumulated chain has
already rejected the handler is skipped; otherwise the next element is
executed starting at the settlement of the chain so far, and the chain
adopts its result and settlement. -/
def serialStep (env : Env) (reg : Registry) (fuel : Nat) (targetName : String)
    (ctx : Ctx) (acc : Outcome) (t : Target) : Outcome :=
  match acc.result with
  | some _ => acc
  | none =>
    let o := executeAnyTarget env reg fuel t targetName ctx acc.settle
    ⟨o.result, o.settle, acc.trace ++ o.trace⟩

theorem serially_cons (env : Env) (reg : Registry) (fuel t0 t1 rest targetName ctx time) :
    executeArrayTargetSerially env reg (fuel + 1) (t0 :: t1 :: rest) targetName ctx time =
      (t1 :: rest).foldl (serialStep env reg fuel targetName ctx) ⟨none, time, []⟩ := rfl

theorem invocationIds_append (l1 l2 : List (Nat × Ev)) :
    invocationIds (l1 ++ l2) = invocationIds l1 ++ invocationIds l2 := by
  simp [invocationIds]

theorem invocationCtxs_append (l1 l2 : List (Nat × Ev)) :
    invocationCtxs (l1 ++ l2) = invocationCtxs l1 ++ invocationCtxs l2 := by
  simp [invocationCtxs]

theorem runner_result (env : Env) (id targetName ctx time) :
    (executeTargetRunner env id targetName ctx time).result = behResult (env id) := by
  unfold executeTargetRunner
  cases h : behResult (env id) <;> simp [h]

theorem runner_settle (env : Env) (id targetName ctx time) :
    (executeTargetRunner env id targetName ctx time).settle
      = time + 2 + behDur (env id) + 1 := by
  unfold executeTargetRunner
  cases h : behResult (env id) <;> simp [h]

theorem runner_invocationIds (env : Env) (id targetName ctx time) :
    invocationIds (executeTargetRunner env id targetName ctx time).trace = [id] := by
  unfold executeTargetRunner
  cases h : behResult (env id) <;> simp [h, invocationIds]

theorem runner_invocationCtxs (env : Env) (id targetName ctx time) :
    invocationCtxs (executeTargetRunner env id targetName ctx time).trace = [(id, ctx)] := by
  unfold executeTargetRunner
  cases h : behResult (env id) <;> simp [h, invocationCtxs]

theorem runner_trace_bounds (env : Env) (id targetName ctx time) :
    ∀ p ∈ (executeTargetRunner env id targetName ctx time).trace,
      time < p.1 ∧ p.1 ≤ (executeTargetRunner env id targetName ctx time).settle := by
  intro p hp
  unfold executeTargetRunner at hp ⊢
  cases h : behResult (env id) <;> simp [h] at hp ⊢ <;>
    rcases hp with h1 | h1 | h1 <;> subst h1 <;> simp <;> omega

theorem runner_pairwise (env : Env) (id targetName ctx time) :
    List.Pairwise (fun p q => p.1 < q.1)
      (executeTargetRunner env id targetName ctx time).trace := by
  unfold executeTargetRunner
  cases h : behResult (env id) <;>
    simp [List.pairwise_cons] <;> omega

theorem runner_wellTimed (env : Env) (id targetName ctx time) :
    wellTimed (executeTargetRunner env id targetName ctx time) := by
  refine ⟨runner_pairwise env id targetName ctx time, ?_⟩
  intro p hp
  exact (runner_trace_bounds env id targetName ctx time p hp).2

theorem foldl_serialStep_stuck (env : Env) (reg : Registry) (fuel targetName ctx) :
    ∀ (l : List Target) (acc : Outcome) (e : Err), acc.result = some e →
      l.foldl (serialStep env reg fuel targetName ctx) acc = acc := by
  intro l
  induction l with
  | nil => intro acc e h; rfl
  | cons t rest ih =>
    intro acc e h
    show List.foldl _ (serialStep env reg fuel targetName ctx acc t) rest = acc
    rw [serialStep, h]
    exact ih acc e h

/-- The serial chain over a list of action callbacks: the chain settles
with the first failure (or fulfils when none fails), invokes exactly the
callbacks up to and including the first failing one in index order, and
its observations are strictly increasing in time, each element starting
only after the settlement of the previous link. -/
theorem serial_chain (env : Env) (reg : Registry) (fuel : Nat) (targetName : String) (ctx : Ctx) :
    ∀ (ids : List Nat) (acc : Outcome), acc.result = none → wellTimed acc →
      ((ids.map Target.fn).foldl (serialStep env reg (fuel + 1) targetName ctx) acc).result
          = firstFailErr env ids
      ∧ invocationIds ((ids.map Target.fn).foldl
            (serialStep env reg (fuel + 1) targetName ctx) acc).trace
          = invocationIds acc.trace ++ invokedUpToFirstFail env ids
      ∧ acc.settle ≤ ((ids.map Target.fn).foldl
            (serialStep env reg (fuel + 1) targetName ctx) acc).settle
      ∧ wellTimed ((ids.map Target.fn).foldl
            (serialStep env reg (fuel + 1) targetName ctx) acc) := by
  intro ids
  induction ids with
  | nil =>
    intro acc hres hwt
    exact ⟨hres, by simp [invokedUpToFirstFail], Nat.le_refl _, hwt⟩
  | cons i rest ih =>
    intro acc hres hwt
    have hstep : serialStep env reg (fuel + 1) targetName ctx acc (Target.fn i)
        = ⟨(executeTargetRunner env i targetName ctx acc.settle).result,
           (executeTargetRunner env i targetName ctx acc.settle).settle,
           acc.trace ++ (executeTargetRunner env i targetName ctx acc.settle).trace⟩ := by
      rw [serialStep, hres]
      rfl
    have hsettle := runner_settle env i targetName ctx acc.settle
    have hbounds := runner_trace_bounds env i targetName ctx acc.settle
    have hwt2 : wellTimed ⟨(executeTargetRunner env i targetName ctx acc.settle).result,
        (executeTargetRunner env i targetName ctx acc.settle).settle,
        acc.trace ++ (executeTargetRunner env i targetName ctx acc.settle).trace⟩ := by
      constructor
      · rw [List.pairwise_append]
        refine ⟨hwt.1, runner_pairwise env i targetName ctx acc.settle, ?_⟩
        intro p hp q hq
        have h1 := hwt.2 p hp
        have h2 := (hbounds q hq).1
        omega
      · intro p hp
        rcases List.mem_append.mp hp with h1 | h1
        · have := hwt.2 p h1
          simp only []
          omega
        · exact (hbounds p h1).2
    rw [List.map_cons, List.foldl_cons, hstep]
    cases hbeh : behResult (env i) with
    | some e =>
      have hres2 : (executeTargetRunner env i targetName ctx acc.settle).result = some e := by
        rw [runner_result, hbeh]
      rw [foldl_serialStep_stuck env reg (fuel + 1) targetName ctx (rest.map Target.fn)
          ⟨(executeTargetRunner env i targetName ctx acc.settle).result,
           (executeTargetRunner env i targetName ctx acc.settle).settle,
           acc.trace ++ (executeTargetRunner env i targetName ctx acc.settle).trace⟩ e hres2]
      refine ⟨?_, ?_, ?_, hwt2⟩
      · show (executeTargetRunner env i targetName ctx acc.settle).result = _
        rw [hres2]
        simp [firstFailErr, hbeh]
      · show invocationIds
            (acc.trace ++ (executeTargetRunner env i targetName ctx acc.settle).trace) = _
        rw [invocationIds_append, runner_invocationIds]
        simp [invokedUpToFirstFail, hbeh]
      · show acc.settle ≤ (executeTargetRunner env i targetName ctx acc.settle).settle
        omega
    | none =>
      have hres2 : (executeTargetRunner env i targetName ctx acc.settle).result = none := by
        rw [runner_result, hbeh]
      obtain ⟨hr, hinv, hle, hwt3⟩ := ih
        ⟨(executeTargetRunner env i targetName ctx acc.settle).result,
         (executeTargetRunner env i targetName ctx acc.settle).settle,
         acc.trace ++ (executeTargetRunner env i targetName ctx acc.settle).trace⟩
        hres2 hwt2
      refine ⟨?_, ?_, ?_, hwt3⟩
      · rw [hr]
        simp [firstFailErr, hbeh]
      · rw [hinv]
        show invocationIds
              (acc.trace ++ (executeTargetRunner env i targetName ctx acc.settle).trace) ++ _ = _
        rw [invocationIds_append, runner_invocationIds]
        simp [invokedUpToFirstFail, hbeh]
      · have h1 : acc.settle ≤ (executeTargetRunner env i targetName ctx acc.settle).settle := by
          omega
        exact le_trans h1 hle

@[simp] theorem joinTraces_nil : joinTraces [] = [] := rfl

@[simp] theorem joinTraces_cons (o : Outcome) (os : List Outcome) :
    joinTraces (o :: os) = o.trace ++ joinTraces os := rfl

theorem joinTraces_mem (os : List Outcome) :
    ∀ o ∈ os, ∀ p ∈ o.trace, p ∈ joinTraces os := by
  induction os with
  | nil => intro o h; exact absurd h (List.not_mem_nil o)
  | cons o2 rest ih =>
    intro o h p hp
    rw [joinTraces_cons]
    rcases List.mem_cons.mp h with h1 | h1
    · subst h1
      exact List.mem_append.mpr (Or.inl hp)
    · exact List.mem_append.mpr (Or.inr (ih o h1 p hp))

@[simp] theorem firstRejection_nil : firstRejection [] = none := rfl

theorem firstRejection_cons (o : Outcome) (rest : List Outcome) :
    firstRejection (o :: rest) =
      match o.result with
      | none => firstRejection rest
      | some e =>
        match firstRejection rest with
        | none => some (o.settle, e)
        | some (s, e2) => if s < o.settle then some (s, e2) else some (o.settle, e) := rfl

theorem firstRejection_isNone (os : List Outcome) :
    (firstRejection os).isNone = os.all (fun o => o.result.isNone) := by
  induction os with
  | nil => rfl
  | cons o rest ih =>
    rw [firstRejection_cons]
    cases h : o.result with
    | none => simp [h, ih]
    | some e =>
      cases h2 : firstRejection rest with
      | none => simp [h]
      | some se =>
        rcases se with ⟨s, e2⟩
        by_cases hlt : s < o.settle <;> simp [h, hlt]

theorem firstRejection_none_mem (os : List Outcome) (h : firstRejection os = none) :
    ∀ o ∈ os, o.result = none := by
  intro o ho
  have h2 := firstRejection_isNone os
  rw [h] at h2
  have h3 : os.all (fun o => o.result.isNone) = true := h2.symm
  exact Option.isNone_iff_eq_none.mp (List.all_eq_true.mp h3 o ho)

theorem firstRejection_some_spec (os : List Outcome) :
    ∀ s e, firstRejection os = some (s, e) →
      ∃ o ∈ os, o.result = some e ∧ o.settle = s ∧
        ∀ o2 ∈ os, o2.result.isSome = true → s ≤ o2.settle := by
  induction os with
  | nil => intro s e h; exact absurd h (by simp)
  | cons o rest ih =>
    intro s e h
    rw [firstRejection_cons] at h
    cases hr : o.result with
    | none =>
      simp only [hr] at h
      obtain ⟨o3, ho3, q1, q2, q3⟩ := ih s e h
      refine ⟨o3, List.mem_cons_of_mem _ ho3, q1, q2, ?_⟩
      intro o2 ho2 hsome
      rcases List.mem_cons.mp ho2 with h4 | h4
      · subst h4
        rw [hr] at hsome
        exact absurd hsome (by simp)
      · exact q3 o2 h4 hsome
    | some e0 =>
      cases h2 : firstRejection rest with
      | none =>
        simp only [hr, h2, Option.some.injEq, Prod.mk.injEq] at h
        obtain ⟨hs, he⟩ := h
        subst hs; subst he
        refine ⟨o, List.mem_cons_self o rest, hr, rfl, ?_⟩
        intro o2 ho2 hsome
        rcases List.mem_cons.mp ho2 with h4 | h4
        · subst h4; exact Nat.le_refl _
        · rw [firstRejection_none_mem rest h2 o2 h4] at hsome
          exact absurd hsome (by simp)
      | some se =>
        rcases se with ⟨s1, e1⟩
        simp only [hr, h2] at h
        by_cases hlt : s1 < o.settle
        · rw [if_pos hlt] at h
          simp only [Option.some.injEq, Prod.mk.injEq] at h
          obtain ⟨hs, he⟩ := h
          subst hs; subst he
          obtain ⟨o3, ho3, q1, q2, q3⟩ := ih s1 e1 h2
          refine ⟨o3, List.mem_cons_of_mem _ ho3, q1, q2, ?_⟩
          intro o2 ho2 hsome
          rcases List.mem_cons.mp ho2 with h4 | h4
          · subst h4
            exact Nat.le_of_lt hlt
          · exact q3 o2 h4 hsome
        · rw [if_neg hlt] at h
          simp only [Option.some.injEq, Prod.mk.injEq] at h
          obtain ⟨hs, he⟩ := h
          subst hs; subst he
          refine ⟨o, List.mem_cons_self o rest, hr, rfl, ?_⟩
          intro o2 ho2 hsome
          rcases List.mem_cons.mp ho2 with h4 | h4
          · subst h4; exact Nat.le_refl _
          · obtain ⟨o3, ho3, q1, q2, q3⟩ := ih s1 e1 h2
            exact le_trans (Nat.le_of_not_lt hlt) (q3 o2 h4 hsome)

@[simp] theorem maxSettle_nil (init : Nat) : maxSettle init [] = init := rfl

@[simp] theorem maxSettle_cons (init : Nat) (o : Outcome) (os : List Outcome) :
    maxSettle init (o :: os) = maxSettle (max init o.settle) os := rfl

theorem maxSettle_init_le (os : List Outcome) : ∀ init, init ≤ maxSettle init os := by
  induction os with
  | nil => intro init; exact Nat.le_refl _
  | cons o rest ih =>
    intro init
    exact le_trans (Nat.le_max_left init o.settle) (ih (max init o.settle))

theorem maxSettle_mem (os : List Outcome) :
    ∀ init, ∀ o ∈ os, o.settle ≤ maxSettle init os := by
  induction os with
  | nil => intro init o h; exact absurd h (List.not_mem_nil o)
  | cons o2 rest ih =>
    intro init o h
    rcases List.mem_cons.mp h with h1 | h1
    · subst h1
      rw [maxSettle_cons]
      exact le_trans (Nat.le_max_right init o.settle) (maxSettle_init_le rest (max init o.settle))
    · exact ih (max init o2.settle) o h1

theorem parallel_unfold (env : Env) (reg : Registry) (fuel ts targetName ctx time) :
    executeArrayTargetInParallel env reg (fuel + 1) ts targetName ctx time =
      match firstRejection
          (ts.map (fun t => executeAnyTarget env reg fuel t targetName ctx time)) with
      | some (s, e) =>
          ⟨some e, s,
            joinTraces (ts.map (fun t => executeAnyTarget env reg fuel t targetName ctx time))⟩
      | none =>
          ⟨none,
            maxSettle time (ts.map (fun t => executeAnyTarget env reg fuel t targetName ctx time)),
            joinTraces (ts.map (fun t => executeAnyTarget env reg fuel t targetName ctx time))⟩ := rfl

theorem parMap_fn (env : Env) (reg : Registry) (fuel : Nat) (ids : List Nat)
    (targetName : String) (ctx : Ctx) (time : Nat) :
    (ids.map Target.fn).map (fun t => executeAnyTarget env reg (fuel + 1) t targetName ctx time)
      = ids.map (fun i => executeTargetRunner env i targetName ctx time) := by
  rw [List.map_map]
  rfl

theorem joinTraces_runner_invIds (env : Env) (targetName ctx time) :
    ∀ ids : List Nat,
      invocationIds (joinTraces
        (ids.map (fun i => executeTargetRunner env i targetName ctx time))) = ids := by
  intro ids
  induction ids with
  | nil => rfl
  | cons i rest ih =>
    simp only [List.map_cons, joinTraces_cons, invocationIds_append, runner_invocationIds, ih]
    simp

theorem runner_all_isNone (env : Env) (targetName ctx time) (ids : List Nat) :
    (ids.map (fun i => executeTargetRunner env i targetName ctx time)).all
        (fun o => o.result.isNone)
      = ids.all (fun i => (behResult (env i)).isNone) := by
  induction ids with
  | nil => rfl
  | cons i rest ih => simp [List.all_cons, runner_result, ih]

/-- An observation is compatible with context `ctx` when it is not a
callback invocation, or is a callback invocation carrying exactly `ctx`. -/
def ctxEvOK (ctx : Ctx) (ev : Ev) : Bool :=
  match ev with
  | Ev.callbackInvoked _ c => c == ctx
  | _ => true

/-- Every callback invocation in the trace of `o` carries context `ctx`. -/
def traceCtxOK (ctx : Ctx) (o : Outcome) : Bool :=
  o.trace.all (fun p => ctxEvOK ctx p.2)

theorem runner_ctx (env : Env) (id targetName ctx time) :
    traceCtxOK ctx (executeTargetRunner env id targetName ctx time) = true := by
  unfold traceCtxOK executeTargetRunner
  cases h : behResult (env id) <;> simp [h, ctxEvOK]

theorem foldl_serialStep_ctx (env : Env) (reg : Registry) (fuel targetName ctx)
    (hstep : ∀ t time,
      traceCtxOK ctx (executeAnyTarget env reg fuel t targetName ctx time) = true) :
    ∀ (l : List Target) (acc : Outcome), traceCtxOK ctx acc = true →
      traceCtxOK ctx (l.foldl (serialStep env reg fuel targetName ctx) acc) = true := by
  intro l
  induction l with
  | nil => intro acc h; exact h
  | cons t rest ih =>
    intro acc h
    rw [List.foldl_cons]
    apply ih
    cases hr : acc.result with
    | some e =>
      have hser : serialStep env reg fuel targetName ctx acc t = acc := by
        unfold serialStep
        rw [hr]
      rw [hser]
      exact h
    | none =>
      have hser : serialStep env reg fuel targetName ctx acc t =
          ⟨(executeAnyTarget env reg fuel t targetName ctx acc.settle).result,
           (executeAnyTarget env reg fuel t targetName ctx acc.settle).settle,
           acc.trace ++ (executeAnyTarget env reg fuel t targetName ctx acc.settle).trace⟩ := by
        unfold serialStep
        rw [hr]
      rw [hser]
      unfold traceCtxOK at h ⊢
      rw [List.all_append]
      have h2 := hstep t acc.settle
      unfold traceCtxOK at h2
      rw [h, h2]
      rfl

theorem joinTraces_all_ctx (ctx : Ctx) : ∀ (os : List Outcome),
    (∀ o ∈ os, traceCtxOK ctx o = true) →
    (joinTraces os).all (fun p => ctxEvOK ctx p.2) = true := by
  intro os
  induction os with
  | nil => intro _; rfl
  | cons o rest ih =>
    intro h
    rw [joinTraces_cons, List.all_append]
    have h1 := h o (List.mem_cons_self o rest)
    unfold traceCtxOK at h1
    rw [h1, ih (fun o2 ho2 => h o2 (List.mem_cons_of_mem _ ho2))]
    rfl

/-- Context preservation, proved for all five engine functions at once
by induction on the fuel: every callback invocation observed anywhere in
an execution carries exactly the context value the execution was started
with. -/
theorem engine_ctx_all (env : Env) (reg : Registry) (ctx : Ctx) (fuel : Nat) :
      (∀ t targetName time,
        traceCtxOK ctx (executeAnyTarget env reg fuel t targetName ctx time) = true)
      ∧ (∀ ts targetName time,
        traceCtxOK ctx (executeArrayTarget env reg fuel ts targetName ctx time) = true)
      ∧ (∀ ts targetName time,
        traceCtxOK ctx (executeArrayTargetSerially env reg fuel ts targetName ctx time) = true)
      ∧ (∀ ts targetName time,
        traceCtxOK ctx (executeArrayTargetInParallel env reg fuel ts targetName ctx time) = true)
      ∧ (∀ targetName time,
        traceCtxOK ctx (executeTargetWithName env reg fuel targetName ctx time) = true) := by
  induction fuel with
  | zero =>
    refine ⟨fun t n tm => rfl, fun l n tm => rfl, fun l n tm => rfl, fun l n tm => rfl,
            fun n tm => rfl⟩
  | succ fuel ih =>
    obtain ⟨ihAny, ihArr, ihSer, ihPar, ihName⟩ := ih
    refine ⟨?_, ?_, ?_, ?_, ?_⟩
    · intro t targetName time
      cases t with
      | null => rfl
      | undef => rfl
      | bool b => rfl
      | arr ts => exact ihArr ts targetName time
      | str s => exact ihName s time
      | fn id => exact runner_ctx env id targetName ctx time
      | other tag => rfl
    · intro ts targetName time
      cases ts with
      | nil => rfl
      | cons t0 rest =>
        rw [arrayTarget_cons]
        by_cases h : isTrueLiteral t0 = true
        · rw [if_pos h]
          exact ihSer (t0 :: rest) targetName time
        · rw [if_neg h]
          exact ihPar (t0 :: rest) targetName time
    · intro ts targetName time
      cases ts with
      | nil => rfl
      | cons t0 rest =>
        cases rest with
        | nil => rfl
        | cons t1 rest2 =>
          rw [serially_cons]
          exact foldl_serialStep_ctx env reg fuel targetName ctx
            (fun t tm => ihAny t targetName tm) (t1 :: rest2) ⟨none, time, []⟩ rfl
    · intro ts targetName time
      rw [parallel_unfold]
      cases hfr : firstRejection
          (ts.map fun t => executeAnyTarget env reg fuel t targetName ctx time) with
      | none =>
        unfold traceCtxOK
        exact joinTraces_all_ctx ctx _
          (fun o ho => by
            obtain ⟨t, ht, rfl⟩ := List.mem_map.mp ho
            exact ihAny t targetName time)
      | some se =>
        rcases se with ⟨s, e⟩
        unfold traceCtxOK
        exact joinTraces_all_ctx ctx _
          (fun o ho => by
            obtain ⟨t, ht, rfl⟩ := List.mem_map.mp ho
            exact ihAny t targetName time)
    · intro targetName time
      rw [withName_unfold]
      by_cases h : isAbsentRead (jsGet reg targetName) = true
      · rw [if_pos h]
        rfl
      · rw [if_neg h]
        exact ihAny (jsGet reg targetName) targetName time

/-- The top level build event wrapping executeTarget applies around the
inner outcome: buildStarted one tick after entry, then the inner trace,
then buildComplete or buildFailed one tick after the inner settlement,
the inner result re-surfaced unchanged. -/
def buildWrap (s : String) (time : Nat) (o : Outcome) : Outcome :=
  match o.result with
  | none =>
      ⟨none, o.settle + 1,
        (time + 1, Ev.buildStarted s) :: o.trace ++ [(o.settle + 1, Ev.buildComplete s)]⟩
  | some e =>
      ⟨some e, o.settle + 1,
        (time + 1, Ev.buildStarted s) :: o.trace ++ [(o.settle + 1, Ev.buildFailed s e)]⟩

theorem executeTarget_str_ne (env : Env) (reg : Registry) (fuel : Nat) (s : String)
    (ctx : Ctx) (time : Nat) (hs : ¬ s = "") :
    executeTarget env reg fuel (Target.str s) ctx time
      = buildWrap s time (executeAnyTarget env reg fuel (Target.str s) s ctx (time + 2)) := by
  show (if s = "" then
          ⟨some (Err.engine ("Target name is expected to be a string.")), time, []⟩
        else
          buildWrap s time (executeAnyTarget env reg fuel (Target.str s) s ctx (time + 2))) = _
  rw [if_neg hs]

/-- Nesting scheme used to state that an error crosses every recursive
level: wrap a target in a serial composite containing a parallel
composite, `k` times. -/
def nestSerPar : Nat → Target → Target
  | 0, t => t
  | k + 1, t => Target.arr [Target.bool true, Target.arr [nestSerPar k t]]

/-- Fuel consumed by the engine to reach the centre of `nestSerPar k`:
one unit for the final classification step plus six per nesting level. -/
def nestFuel : Nat → Nat → Nat
  | 0, fuel => fuel + 1
  | k + 1, fuel => nestFuel k fuel + 6

theorem nestSerPar_not_true (k : Nat) (id : Nat) :
    isTrueLiteral (nestSerPar k (Target.fn id)) = false := by
  cases k <;> rfl

/-- An error raised by an action callback survives any number of
enclosing serial and parallel composite levels unchanged. -/
theorem nest_result (env : Env) (reg : Registry) (targetName : String) (ctx : Ctx)
    (id : Nat) (e : Err) (fuel : Nat) (h2 : behResult (env id) = some e) :
    ∀ k time,
      (executeAnyTarget env reg (nestFuel k fuel) (nestSerPar k (Target.fn id))
        targetName ctx time).result = some e := by
  intro k
  induction k with
  | zero =>
    intro time
    show (executeTargetRunner env id targetName ctx time).result = some e
    rw [runner_result, h2]
  | succ k ih =>
    intro time
    show (executeAnyTarget env reg (nestFuel k fuel + 3)
        (Target.arr [nestSerPar k (Target.fn id)]) targetName ctx time).result = some e
    show ((if isTrueLiteral (nestSerPar k (Target.fn id)) = true then
            executeArrayTargetSerially env reg (nestFuel k fuel + 1)
              [nestSerPar k (Target.fn id)] targetName ctx time
          else
            executeArrayTargetInParallel env reg (nestFuel k fuel + 1)
              [nestSerPar k (Target.fn id)] targetName ctx time)).result = some e
    rw [if_neg (by rw [nestSerPar_not_true]; exact Bool.false_ne_true)]
    rw [parallel_unfold]
    have hres := ih time
    simp only [List.map_cons, List.map_nil]
    cases hfr : firstRejection [executeAnyTarget env reg (nestFuel k fuel)
        (nestSerPar k (Target.fn id)) targetName ctx time] with
    | none =>
      exfalso
      have h4 := firstRejection_none_mem _ hfr _ (List.mem_cons_self _ _)
      rw [hres] at h4
      exact Option.noConfusion h4
    | some se =>
      rcases se with ⟨s, e2⟩
      obtain ⟨o3, ho3, q1, q2, q3⟩ := firstRejection_some_spec _ s e2 hfr
      rcases List.mem_cons.mp ho3 with h4 | h4
      · subst h4
        rw [hres] at q1
        simp only [hfr]
        rw [show e2 = e from (Option.some.inj q1).symm]
      · exact absurd h4 (List.not_mem_nil o3)

/-- C6.  An Action whose callback throws synchronously or rejects leads
to a targetExecutionFailed event carrying the same error object, a
buildFailed event carrying it, and the rejection of the executeTarget
promise with that identical error; the error also crosses any number of
intermediate composite levels unchanged. -/
theorem llbuild_c6_action_error_propagation (env : Env) (reg : Registry) (fuel : Nat)
    (targetName : String) (id : Nat) (ctx : Ctx) (time : Nat) (e : Err)
    (h1 : jsGet reg targetName = Target.fn id)
    (h2 : env id = Behavior.syncThrow e ∨ ∃ d, env id = Behavior.async d (some e))
    (h3 : targetName ≠ "") :
    (executeTarget env reg (fuel + 3) (Target.str targetName) ctx time).result = some e
    ∧ (∃ t1, (t1, Ev.targetExecutionFailed targetName e)
        ∈ (executeTarget env reg (fuel + 3) (Target.str targetName) ctx time).trace)
    ∧ (∃ t2, (t2, Ev.buildFailed targetName e)
        ∈ (executeTarget env reg (fuel + 3) (Target.str targetName) ctx time).trace)
    ∧ ∀ k time2,
        (executeAnyTarget env reg (nestFuel k fuel) (nestSerPar k (Target.fn id))
          targetName ctx time2).result = some e := by
  have hbeh : behResult (env id) = some e := by
    rcases h2 with h | ⟨d, h⟩ <;> rw [h] <;> rfl
  have hinner : executeAnyTarget env reg (fuel + 3) (Target.str targetName) targetName ctx
      (time + 2) = executeTargetRunner env id targetName ctx (time + 2) := by
    have e1 : executeAnyTarget env reg (fuel + 3) (Target.str targetName) targetName ctx
        (time + 2) = executeTargetWithName env reg (fuel + 2) targetName ctx (time + 2) := rfl
    have e2 : executeTargetWithName env reg (fuel + 2) targetName ctx (time + 2)
        = if isAbsentRead (jsGet reg targetName) = true then
            ⟨some (Err.engine ("Target does not exist: " ++ targetName)), time + 2, []⟩
          else
            executeAnyTarget env reg (fuel + 1) (jsGet reg targetName) targetName ctx
              (time + 2) := rfl
    rw [e1, e2, h1]
    rw [if_neg (by simp [isAbsentRead])]
    rfl
  have hrt : (executeTargetRunner env id targetName ctx (time + 2)).result = some e := by
    rw [runner_result, hbeh]
  have hrtrace : (executeTargetRunner env id targetName ctx (time + 2)).trace
      = [(time + 2 + 1, Ev.targetExecutionStarted targetName),
         (time + 2 + 2, Ev.callbackInvoked id ctx),
         (time + 2 + 2 + behDur (env id) + 1, Ev.targetExecutionFailed targetName e)] := by
    unfold executeTargetRunner
    rw [hbeh]
  have htop : executeTarget env reg (fuel + 3) (Target.str targetName) ctx time
      = ⟨some e, (executeTargetRunner env id targetName ctx (time + 2)).settle + 1,
          (time + 1, Ev.buildStarted targetName)
            :: (executeTargetRunner env id targetName ctx (time + 2)).trace
            ++ [((executeTargetRunner env id targetName ctx (time + 2)).settle + 1,
                 Ev.buildFailed targetName e)]⟩ := by
    rw [executeTarget_str_ne env reg (fuel + 3) targetName ctx time h3, hinner]
    unfold buildWrap
    rw [hrt]
  refine ⟨by rw [htop], ?_, ?_, fun k time2 => nest_result env reg targetName ctx id e fuel hbeh k time2⟩
  · refine ⟨time + 2 + 2 + behDur (env id) + 1, ?_⟩
    rw [htop, hrtrace]
    simp
  · refine ⟨(executeTargetRunner env id targetName ctx (time + 2)).settle + 1, ?_⟩
    rw [htop]
    simp

/-- C6 witness: a registered action that throws synchronously makes
executeTarget reject with that same error and the failure events carry
it. -/
theorem llbuild_c6_action_error_propagation_witness :
    ((executeTarget (fun _ => Behavior.syncThrow (Err.user 42)) [("boom", Target.fn 0)] 3
        (Target.str ("boom")) 0 0).result = some (Err.user 42))
    ∧ (∃ t1, (t1, Ev.targetExecutionFailed ("boom") (Err.user 42))
        ∈ (executeTarget (fun _ => Behavior.syncThrow (Err.user 42)) [("boom", Target.fn 0)] 3
            (Target.str ("boom")) 0 0).trace)
    ∧ (∃ t2, (t2, Ev.buildFailed ("boom") (Err.user 42))
        ∈ (executeTarget (fun _ => Behavior.syncThrow (Err.user 42)) [("boom", Target.fn 0)] 3
            (Target.str ("boom")) 0 0).trace)
    ∧ ∀ k time2,
        (executeAnyTarget (fun _ => Behavior.syncThrow (Err.user 42)) [("boom", Target.fn 0)]
          (nestFuel k 0) (nestSerPar k (Target.fn 0)) ("boom") 0 time2).result
          = some (Err.user 42) :=
  llbuild_c6_action_error_propagation (fun _ => Behavior.syncThrow (Err.user 42))
    [("boom", Target.fn 0)] 0 ("boom") 0 0 0 (Err.user 42) rfl (Or.inl rfl) (by decide)

/-- C7.  A Name whose key is missing from the registry rejects with a
target does not exist error naming the key, both at the name resolution
step and through the executeTarget entry point. -/
theorem llbuild_c7_missing_name (env : Env) (reg : Registry) (fuel : Nat)
    (targetName : String) (ctx : Ctx) (time : Nat)
    (h : List.lookup targetName reg = none) (h2 : targetName ≠ "") :
    executeTargetWithName env reg (fuel + 1) targetName ctx time
      = ⟨some (Err.engine ("Target does not exist: " ++ targetName)), time, []⟩
    ∧ (executeTarget env reg (fuel + 2) (Target.str targetName) ctx time).result
      = some (Err.engine ("Target does not exist: " ++ targetName)) := by
  have hget : jsGet reg targetName = Target.undef := by
    unfold jsGet
    rw [h]
    rfl
  have key : ∀ time2, executeTargetWithName env reg (fuel + 1) targetName ctx time2
      = ⟨some (Err.engine ("Target does not exist: " ++ targetName)), time2, []⟩ := by
    intro time2
    rw [withName_unfold, hget]
    rfl
  refine ⟨key time, ?_⟩
  have hin : executeAnyTarget env reg (fuel + 2) (Target.str targetName) targetName ctx
      (time + 2) = executeTargetWithName env reg (fuel + 1) targetName ctx (time + 2) := rfl
  rw [executeTarget_str_ne env reg (fuel + 2) targetName ctx time h2, hin, key (time + 2)]
  rfl

/-- C7 witness at a concrete empty registry and the key missing. -/
theorem llbuild_c7_missing_name_witness :
    executeTargetWithName envOk [] 1 ("missing") 0 0
      = ⟨some (Err.engine ("Target does not exist: missing")), 0, []⟩
    ∧ (executeTarget envOk [] 2 (Target.str ("missing")) 0 0).result
      = some (Err.engine ("Target does not exist: missing")) :=
  llbuild_c7_missing_name envOk [] 0 ("missing") 0 0 rfl (by decide)

/-- C1 counterexample.  In the parallel composite [reject-now, fulfil-later]
the composite outcome (a failure) settles at time 3 while the started
sibling only settles (and emits its completion event) at time 13: the
outcome is surfaced before every started element has settled, refuting
the claim that completion always waits for the join; the sibling is
nevertheless not cancelled (its completion event is still observed). -/
theorem llbuild_c1_counterexample :
    (executeAnyTarget envRace [] 5 (Target.arr [Target.fn 0, Target.fn 1]) ("n") 0 0).result
      = some (Err.user 0)
    ∧ (executeAnyTarget envRace [] 5 (Target.arr [Target.fn 0, Target.fn 1]) ("n") 0 0).settle = 3
    ∧ ((13, Ev.targetExecutionCompleted ("n"))
        ∈ (executeAnyTarget envRace [] 5 (Target.arr [Target.fn 0, Target.fn 1]) ("n") 0 0).trace)
    ∧ (executeAnyTarget envRace [] 5 (Target.arr [Target.fn 0, Target.fn 1]) ("n") 0 0).settle
        < 13 :=
  ⟨by decide, by decide, by decide, by decide⟩

/-- C1 amended.  For a parallel composite: every element's observations
surface in the composite trace whether or not a sibling fails (started
siblings are not cancelled); when the composite fulfils it does so only
after every element has settled; when it rejects it does so exactly at
the earliest element rejection (so possibly before later-settling
elements), with that element's error. -/
theorem llbuild_c1_amended (env : Env) (reg : Registry) (fuel : Nat) (ts : List Target)
    (targetName : String) (ctx : Ctx) (time : Nat) :
    ((ts.map (fun t => executeAnyTarget env reg fuel t targetName ctx time)).all
        (fun oi => oi.trace.all (fun p => decide (p ∈
          (executeArrayTargetInParallel env reg (fuel + 1) ts targetName ctx time).trace)))
      = true)
    ∧ ((executeArrayTargetInParallel env reg (fuel + 1) ts targetName ctx time).result = none →
        ((ts.map (fun t => executeAnyTarget env reg fuel t targetName ctx time)).all
          (fun oi => decide (oi.settle ≤
            (executeArrayTargetInParallel env reg (fuel + 1) ts targetName ctx time).settle)))
          = true)
    ∧ (∀ e, (executeArrayTargetInParallel env reg (fuel + 1) ts targetName ctx time).result
          = some e →
        ((ts.map (fun t => executeAnyTarget env reg fuel t targetName ctx time)).any
            (fun oi => decide (oi.result = some e) && decide (oi.settle =
              (executeArrayTargetInParallel env reg (fuel + 1) ts targetName ctx time).settle)))
          = true
        ∧ ((ts.map (fun t => executeAnyTarget env reg fuel t targetName ctx time)).all
            (fun oi => !oi.result.isSome || decide (
              (executeArrayTargetInParallel env reg (fuel + 1) ts targetName ctx time).settle
                ≤ oi.settle)))
          = true) := by
  rw [parallel_unfold]
  cases hfr : firstRejection
      (ts.map (fun t => executeAnyTarget env reg fuel t targetName ctx time)) with
  | none =>
    simp only [hfr]
    refine ⟨?_, ?_, ?_⟩
    · rw [List.all_eq_true]
      intro oi hoi
      rw [List.all_eq_true]
      intro p hp
      exact decide_eq_true (joinTraces_mem _ oi hoi p hp)
    · intro _
      rw [List.all_eq_true]
      intro oi hoi
      exact decide_eq_true (maxSettle_mem _ time oi hoi)
    · intro e he
      exact absurd he (by simp)
  | some se =>
    rcases se with ⟨s, e0⟩
    simp only [hfr]
    refine ⟨?_, ?_, ?_⟩
    · rw [List.all_eq_true]
      intro oi hoi
      rw [List.all_eq_true]
      intro p hp
      exact decide_eq_true (joinTraces_mem _ oi hoi p hp)
    · intro hnone
      exact absurd hnone (by simp)
    · intro e he
      have he2 : e0 = e := Option.some.inj he
      subst he2
      obtain ⟨oi, hoi, q1, q2, q3⟩ := firstRejection_some_spec _ s e0 hfr
      constructor
      · rw [List.any_eq_true]
        refine ⟨oi, hoi, ?_⟩
        rw [Bool.and_eq_true]
        exact ⟨decide_eq_true q1, decide_eq_true q2⟩
      · rw [List.all_eq_true]
        intro oj hoj
        cases hres : oj.result with
        | none => simp [hres]
        | some e2 =>
          have h4 := q3 oj hoj (by rw [hres]; rfl)
          simp [hres, h4]

/-- C1 amended witness: a fulfilled parallel composite settles no
earlier than its element, and a rejecting one settles at the earliest
rejection, no later than any rejecting element. -/
theorem llbuild_c1_amended_witness :
    (([Target.fn 1].map (fun t => executeAnyTarget envOk [] 1 t ("n") 0 0)).all
        (fun oi => decide (oi.settle ≤
          (executeArrayTargetInParallel envOk [] 2 [Target.fn 1] ("n") 0 0).settle)) = true)
    ∧ (([Target.fn 0, Target.fn 1].map
          (fun t => executeAnyTarget envRace [] 1 t ("n") 0 0)).any
        (fun oi => decide (oi.result = some (Err.user 0)) && decide (oi.settle =
          (executeArrayTargetInParallel envRace [] 2 [Target.fn 0, Target.fn 1] ("n") 0 0).settle))
        = true)
    ∧ (([Target.fn 0, Target.fn 1].map
          (fun t => executeAnyTarget envRace [] 1 t ("n") 0 0)).all
        (fun oi => !oi.result.isSome || decide (
          (executeArrayTargetInParallel envRace [] 2 [Target.fn 0, Target.fn 1] ("n") 0 0).settle
            ≤ oi.settle)) = true) :=
  ⟨(llbuild_c1_amended envOk [] 1 [Target.fn 1] ("n") 0 0).2.1 (by decide),
   ((llbuild_c1_amended envRace [] 1 [Target.fn 0, Target.fn 1] ("n") 0 0).2.2 (Err.user 0)
      (by decide)).1,
   ((llbuild_c1_amended envRace [] 1 [Target.fn 0, Target.fn 1] ("n") 0 0).2.2 (Err.user 0)
      (by decide)).2⟩

/-- C2 counterexample.  With registry a bound to the name b and b bound
to an action, executing a attributes the action's events to b, the
resolved key, not to the enclosing top level name a through which the
branch was reached: resolution does not preserve the enclosing
reporting name. -/
theorem llbuild_c2_counterexample :
    ((3, Ev.targetExecutionStarted ("b"))
        ∈ (executeTarget envOk [("a", Target.str ("b")), ("b", Target.fn 0)] 9
            (Target.str ("a")) 0 0).trace)
    ∧ ((executeTarget envOk [("a", Target.str ("b")), ("b", Target.fn 0)] 9
          (Target.str ("a")) 0 0).trace.all
        (fun p => decide (p.2 ≠ Ev.targetExecutionStarted ("a"))) = true) :=
  ⟨by decide, by decide⟩

/-- C2 amended.  Resolving a Name installs the resolved key as the new
reporting name for the bound value: whenever a resolves to the name b
and b resolves to an action, the action's events carry b (the innermost
enclosing registry key on the branch) and never a; at the top level the
requested name is the initial reporting name. -/
theorem llbuild_c2_amended (env : Env) (reg : Registry) (fuel : Nat) (a b : String)
    (id : Nat) (ctx : Ctx) (time : Nat)
    (h1 : jsGet reg a = Target.str b) (h2 : jsGet reg b = Target.fn id) (h3 : a ≠ "") :
    ((time + 3, Ev.targetExecutionStarted b)
        ∈ (executeTarget env reg (fuel + 5) (Target.str a) ctx time).trace)
    ∧ ((executeTarget env reg (fuel + 5) (Target.str a) ctx time).trace.all
        (fun p => decide (p.2 ≠ Ev.targetExecutionStarted a)) = true) := by
  have hab : b ≠ a := by
    intro hba
    rw [hba] at h2
    rw [h1] at h2
    exact Target.noConfusion h2
  have hinner : executeAnyTarget env reg (fuel + 5) (Target.str a) a ctx (time + 2)
      = executeTargetRunner env id b ctx (time + 2) := by
    have e1 : executeAnyTarget env reg (fuel + 5) (Target.str a) a ctx (time + 2)
        = executeTargetWithName env reg (fuel + 4) a ctx (time + 2) := rfl
    have e2 : executeTargetWithName env reg (fuel + 4) a ctx (time + 2)
        = if isAbsentRead (jsGet reg a) = true then
            ⟨some (Err.engine ("Target does not exist: " ++ a)), time + 2, []⟩
          else executeAnyTarget env reg (fuel + 3) (jsGet reg a) a ctx (time + 2) := rfl
    have e3 : executeAnyTarget env reg (fuel + 3) (Target.str b) a ctx (time + 2)
        = executeTargetWithName env reg (fuel + 2) b ctx (time + 2) := rfl
    have e4 : executeTargetWithName env reg (fuel + 2) b ctx (time + 2)
        = if isAbsentRead (jsGet reg b) = true then
            ⟨some (Err.engine ("Target does not exist: " ++ b)), time + 2, []⟩
          else executeAnyTarget env reg (fuel + 1) (jsGet reg b) b ctx (time + 2) := rfl
    rw [e1, e2, h1]
    rw [if_neg (by simp [isAbsentRead])]
    rw [e3, e4, h2]
    rw [if_neg (by simp [isAbsentRead])]
    rfl
  have htop := executeTarget_str_ne env reg (fuel + 5) a ctx time h3
  rw [hinner] at htop
  cases hbr : behResult (env id) with
  | none =>
    have hru : executeTargetRunner env id b ctx (time + 2)
        = ⟨none, time + 2 + 2 + behDur (env id) + 1,
           [(time + 2 + 1, Ev.targetExecutionStarted b),
            (time + 2 + 2, Ev.callbackInvoked id ctx),
            (time + 2 + 2 + behDur (env id) + 1, Ev.targetExecutionCompleted b)]⟩ := by
      unfold executeTargetRunner
      rw [hbr]
    rw [hru] at htop
    unfold buildWrap at htop
    constructor
    · rw [htop]
      exact List.mem_cons_of_mem _ (List.mem_append_left _ (List.mem_cons_self _ _))
    · rw [htop]
      simp [List.all_cons, List.all_append, hab]
  | some e =>
    have hru : executeTargetRunner env id b ctx (time + 2)
        = ⟨some e, time + 2 + 2 + behDur (env id) + 1,
           [(time + 2 + 1, Ev.targetExecutionStarted b),
            (time + 2 + 2, Ev.callbackInvoked id ctx),
            (time + 2 + 2 + behDur (env id) + 1, Ev.targetExecutionFailed b e)]⟩ := by
      unfold executeTargetRunner
      rw [hbr]
    rw [hru] at htop
    unfold buildWrap at htop
    constructor
    · rw [htop]
      exact List.mem_cons_of_mem _ (List.mem_append_left _ (List.mem_cons_self _ _))
    · rw [htop]
      simp [List.all_cons, List.all_append, hab]

/-- C2 amended witness at a two level concrete registry. -/
theorem llbuild_c2_amended_witness :
    ((3, Ev.targetExecutionStarted ("y"))
        ∈ (executeTarget envOk [("x", Target.str ("y")), ("y", Target.fn 0)] 5
            (Target.str ("x")) 0 0).trace)
    ∧ ((executeTarget envOk [("x", Target.str ("y")), ("y", Target.fn 0)] 5
          (Target.str ("x")) 0 0).trace.all
        (fun p => decide (p.2 ≠ Ev.targetExecutionStarted ("x"))) = true) :=
  llbuild_c2_amended envOk [("x", Target.str ("y")), ("y", Target.fn 0)] 0 ("x") ("y") 0 0 0
    rfl rfl (by decide)

/-- C3 counterexample.  A key that IS present in the registry but bound
to null does not resolve as a no-op: the engine rejects it with the very
target does not exist error the claim reserves for truly absent keys. -/
theorem llbuild_c3_counterexample :
    (executeTargetWithName envOk [("x", Target.null)] 1 ("x") 0 0).result
      = some (Err.engine ("Target does not exist: x"))
    ∧ ¬ (executeTargetWithName envOk [("x", Target.null)] 1 ("x") 0 0).result = none :=
  ⟨by decide, by decide⟩

/-- C3 amended.  Name resolution rejects with the target does not exist
error exactly when the registry property read yields an absent value,
which happens both when the key is truly missing and when the key is
present but bound to null or undefined; the engine cannot and does not
distinguish the two. -/
theorem llbuild_c3_amended (env : Env) (reg : Registry) (fuel : Nat) (targetName : String)
    (ctx : Ctx) (time : Nat)
    (h : jsGet reg targetName = Target.null ∨ jsGet reg targetName = Target.undef) :
    executeTargetWithName env reg (fuel + 1) targetName ctx time
      = ⟨some (Err.engine ("Target does not exist: " ++ targetName)), time, []⟩ := by
  rcases h with h | h <;> rw [withName_unfold, h] <;> rfl

/-- C3 amended witness: a present key bound to null rejects. -/
theorem llbuild_c3_amended_witness :
    executeTargetWithName envOk [("x", Target.null)] 1 ("x") 0 0
      = ⟨some (Err.engine ("Target does not exist: x")), 0, []⟩ :=
  llbuild_c3_amended envOk [("x", Target.null)] 0 ("x") 0 0 (Or.inl rfl)

/-- C4.  Serial composite over action callbacks: the invoked callbacks
are exactly the elements up to and including the first failing one, in
index order (so nothing after a failure is ever started); the composite
result is the first failure (fulfilment when none fails, so success
requires every element from index 1 on to succeed); the observation
timestamps strictly increase, so each element's started event comes
after the previous element's completion event (each element starts only
after its predecessor settles); the one element composite with just the
marker is a no-op; the example [true, ok, fail, ok] performs exactly two
invocations and fails overall. -/
theorem llbuild_c4_serial_composite (env : Env) (reg : Registry) (fuel : Nat)
    (ids : List Nat) (targetName : String) (ctx : Ctx) (time : Nat) :
    invocationIds (executeAnyTarget env reg (fuel + 4)
        (Target.arr (Target.bool true :: ids.map Target.fn)) targetName ctx time).trace
      = invokedUpToFirstFail env ids
    ∧ (executeAnyTarget env reg (fuel + 4)
        (Target.arr (Target.bool true :: ids.map Target.fn)) targetName ctx time).result
      = firstFailErr env ids
    ∧ List.Pairwise (fun p q => p.1 < q.1)
        (executeAnyTarget env reg (fuel + 4)
          (Target.arr (Target.bool true :: ids.map Target.fn)) targetName ctx time).trace
    ∧ executeAnyTarget env reg (fuel + 4) (Target.arr [Target.bool true]) targetName ctx time
      = okOut time
    ∧ invocationIds (executeAnyTarget envSerialEx [] 4
        (Target.arr [Target.bool true, Target.fn 0, Target.fn 1, Target.fn 2]) ("all") 7 0).trace
      = [0, 1]
    ∧ (executeAnyTarget envSerialEx [] 4
        (Target.arr [Target.bool true, Target.fn 0, Target.fn 1, Target.fn 2]) ("all") 7 0).result
      = some (Err.user 1) := by
  have hmain :
      invocationIds (executeAnyTarget env reg (fuel + 4)
          (Target.arr (Target.bool true :: ids.map Target.fn)) targetName ctx time).trace
        = invokedUpToFirstFail env ids
      ∧ (executeAnyTarget env reg (fuel + 4)
          (Target.arr (Target.bool true :: ids.map Target.fn)) targetName ctx time).result
        = firstFailErr env ids
      ∧ List.Pairwise (fun p q => p.1 < q.1)
          (executeAnyTarget env reg (fuel + 4)
            (Target.arr (Target.bool true :: ids.map Target.fn)) targetName ctx time).trace := by
    cases ids with
    | nil => exact ⟨rfl, rfl, List.Pairwise.nil⟩
    | cons i rest =>
      have hser : executeAnyTarget env reg (fuel + 4)
          (Target.arr (Target.bool true :: (i :: rest).map Target.fn)) targetName ctx time
          = ((i :: rest).map Target.fn).foldl
              (serialStep env reg (fuel + 1) targetName ctx) ⟨none, time, []⟩ := rfl
      obtain ⟨hres, hinv, hle, hwt⟩ := serial_chain env reg fuel targetName ctx (i :: rest)
        ⟨none, time, []⟩ rfl ⟨List.Pairwise.nil, fun p hp => absurd hp (List.not_mem_nil p)⟩
      refine ⟨?_, ?_, ?_⟩
      · rw [hser, hinv]
        simp [invocationIds]
      · rw [hser, hres]
      · rw [hser]
        exact hwt.1
  exact ⟨hmain.1, hmain.2.1, hmain.2.2, rfl, by decide, by decide⟩

/-- C5.  Parallel composite over action callbacks: every element,
including index 0, is invoked exactly once in index order (started
eagerly); the composite fulfils exactly when every element fulfils, so
it fails exactly when at least one element fails; the empty composite
fulfils immediately with no observation; the example [fail, ok, ok]
invokes all three callbacks and fails overall. -/
theorem llbuild_c5_parallel_composite (env : Env) (reg : Registry) (fuel : Nat)
    (ids : List Nat) (targetName : String) (ctx : Ctx) (time : Nat) :
    invocationIds (executeAnyTarget env reg (fuel + 4)
        (Target.arr (ids.map Target.fn)) targetName ctx time).trace = ids
    ∧ (executeAnyTarget env reg (fuel + 4)
        (Target.arr (ids.map Target.fn)) targetName ctx time).result.isNone
      = ids.all (fun j => (behResult (env j)).isNone)
    ∧ executeAnyTarget env reg (fuel + 4) (Target.arr []) targetName ctx time = okOut time
    ∧ invocationIds (executeAnyTarget envParEx [] 4
        (Target.arr [Target.fn 0, Target.fn 1, Target.fn 2]) ("all") 7 0).trace = [0, 1, 2]
    ∧ (executeAnyTarget envParEx [] 4
        (Target.arr [Target.fn 0, Target.fn 1, Target.fn 2]) ("all") 7 0).result
      = some (Err.user 5) := by
  have hmain :
      invocationIds (executeAnyTarget env reg (fuel + 4)
          (Target.arr (ids.map Target.fn)) targetName ctx time).trace = ids
      ∧ (executeAnyTarget env reg (fuel + 4)
          (Target.arr (ids.map Target.fn)) targetName ctx time).result.isNone
        = ids.all (fun j => (behResult (env j)).isNone) := by
    cases ids with
    | nil => exact ⟨rfl, rfl⟩
    | cons i rest =>
      have hpar : executeAnyTarget env reg (fuel + 4)
          (Target.arr ((i :: rest).map Target.fn)) targetName ctx time
          = match firstRejection (((i :: rest).map Target.fn).map
                (fun t => executeAnyTarget env reg (fuel + 1) t targetName ctx time)) with
            | some (s, e) =>
                ⟨some e, s, joinTraces (((i :: rest).map Target.fn).map
                  (fun t => executeAnyTarget env reg (fuel + 1) t targetName ctx time))⟩
            | none =>
                ⟨none, maxSettle time (((i :: rest).map Target.fn).map
                    (fun t => executeAnyTarget env reg (fuel + 1) t targetName ctx time)),
                  joinTraces (((i :: rest).map Target.fn).map
                    (fun t => executeAnyTarget env reg (fuel + 1) t targetName ctx time))⟩ := rfl
      rw [hpar, parMap_fn env reg fuel (i :: rest) targetName ctx time]
      have hiso := firstRejection_isNone ((i :: rest).map
          (fun j => executeTargetRunner env j targetName ctx time))
      rw [runner_all_isNone] at hiso
      constructor
      · cases hfr : firstRejection ((i :: rest).map
            (fun j => executeTargetRunner env j targetName ctx time)) with
        | none =>
          simp only [hfr]
          exact joinTraces_runner_invIds env targetName ctx time (i :: rest)
        | some se =>
          rcases se with ⟨s, e⟩
          simp only [hfr]
          exact joinTraces_runner_invIds env targetName ctx time (i :: rest)
      · cases hfr : firstRejection ((i :: rest).map
            (fun j => executeTargetRunner env j targetName ctx time)) with
        | none =>
          simp only [hfr]
          rw [hfr] at hiso
          exact hiso
        | some se =>
          rcases se with ⟨s, e⟩
          simp only [hfr]
          rw [hfr] at hiso
          exact hiso
  exact ⟨hmain.1, hmain.2, rfl, by decide, by decide⟩

/-- C8.  The runner's observation list is exactly: the started event at
one tick after entry, the callback invocation one tick later (so
strictly after the started event), and one single terminal event
(completed on fulfilment, failed with the error on rejection, never
both) one tick after the callback settles at entry plus two plus its
duration (so strictly after settlement); the runner re-surfaces the
callback result unchanged. -/
theorem llbuild_c8_runner_event_ordering (env : Env) (id : Nat) (targetName : String)
    (ctx : Ctx) (time : Nat) :
    (executeTargetRunner env id targetName ctx time).trace
      = [(time + 1, Ev.targetExecutionStarted targetName),
         (time + 2, Ev.callbackInvoked id ctx),
         (time + 2 + behDur (env id) + 1,
          match behResult (env id) with
          | none => Ev.targetExecutionCompleted targetName
          | some e => Ev.targetExecutionFailed targetName e)]
    ∧ time + 1 < time + 2
    ∧ time + 2 + behDur (env id) < time + 2 + behDur (env id) + 1
    ∧ ((executeTargetRunner env id targetName ctx time).trace.countP (fun p =>
          match p.2 with
          | Ev.targetExecutionCompleted n => n == targetName
          | Ev.targetExecutionFailed n _ => n == targetName
          | _ => false)) = 1
    ∧ (executeTargetRunner env id targetName ctx time).result = behResult (env id) := by
  refine ⟨?_, by omega, by omega, ?_, runner_result env id targetName ctx time⟩
  · unfold executeTargetRunner
    cases h : behResult (env id) <;> simp [h]
  · unfold executeTargetRunner
    cases h : behResult (env id) <;>
      simp [h, List.countP_cons, List.countP_nil]

/-- C9.  The context value given to an execution is delivered unchanged
to every callback invoked at any nesting depth during it, both through
the recursive classification entry and through the executeTarget entry
point; in the nested example the two callbacks both receive the
context value 7. -/
theorem llbuild_c9_context_identity (env : Env) (reg : Registry) (fuel : Nat) (t : Target)
    (targetName : String) (ctx : Ctx) (time : Nat) :
    traceCtxOK ctx (executeAnyTarget env reg fuel t targetName ctx time) = true
    ∧ traceCtxOK ctx (executeTarget env reg fuel t ctx time) = true
    ∧ invocationCtxs (executeAnyTarget envOk [] 9
        (Target.arr [Target.bool true, Target.arr [Target.fn 1, Target.fn 2]]) ("root") 7 0).trace
      = [(1, 7), (2, 7)] := by
  have hany := (engine_ctx_all env reg ctx fuel).1
  refine ⟨hany t targetName time, ?_, by decide⟩
  cases t with
  | str s =>
    by_cases hs : s = ""
    · subst hs
      rfl
    · rw [executeTarget_str_ne env reg fuel s ctx time hs]
      have h2 := hany (Target.str s) s (time + 2)
      unfold traceCtxOK at h2 ⊢
      rw [List.all_eq_true] at h2
      cases hres : (executeAnyTarget env reg fuel (Target.str s) s ctx (time + 2)).result <;>
        simp [buildWrap, hres, ctxEvOK] <;> intro a b hab <;> exact h2 (a, b) hab
  | null => rfl
  | undef => rfl
  | bool b => rfl
  | arr ts => rfl
  | fn id2 => rfl
  | other tag => rfl

/-- C10.  The event-emitting executeTarget rejects, before emitting any
event, with the target name is expected to be a string error for every
argument that is not a truthy string: the empty string, null, undefined,
booleans, arrays, callback functions and any other value. -/
theorem llbuild_c10_name_guard (env : Env) (reg : Registry) (fuel : Nat) (t : Target)
    (ctx : Ctx) (time : Nat) (h : ∀ s, t = Target.str s → s = "") :
    executeTarget env reg fuel t ctx time
      = ⟨some (Err.engine ("Target name is expected to be a string.")), time, []⟩ := by
  cases t with
  | str s =>
    have hs := h s rfl
    show (if s = "" then
            ⟨some (Err.engine ("Target name is expected to be a string.")), time, []⟩
          else
            buildWrap s time (executeAnyTarget env reg fuel (Target.str s) s ctx (time + 2)))
        = ⟨some (Err.engine ("Target name is expected to be a string.")), time, []⟩
    rw [if_pos hs]
  | null => rfl
  | undef => rfl
  | bool b => rfl
  | arr ts => rfl
  | fn id => rfl
  | other tag => rfl

/-- C10 witness: the empty string (a falsy string) and an array target
are both rejected at the entry point with no event emitted. -/
theorem llbuild_c10_name_guard_witness :
    executeTarget envOk [] 3 (Target.str ("")) 0 0
      = ⟨some (Err.engine ("Target name is expected to be a string.")), 0, []⟩
    ∧ executeTarget envOk [] 3 (Target.arr [Target.fn 0]) 0 0
      = ⟨some (Err.engine ("Target name is expected to be a string.")), 0, []⟩ :=
  ⟨llbuild_c10_name_guard envOk [] 3 (Target.str ("")) 0 0
      (fun s hs => (Target.str.inj hs).symm),
   llbuild_c10_name_guard envOk [] 3 (Target.arr [Target.fn 0]) 0 0
      (fun s hs => Target.noConfusion hs)⟩
